import Mathlib

/-!
Verification of the sampling core of the `transit` radiative-transfer code
(`src/transit/src/makesample.c`).

The C code is shallowly embedded over exact rational arithmetic: C `double`
becomes `ℚ`, C `long`/`int` counters become `ℤ` (with the `double → long`
conversion modelled as truncation toward zero), raw `double *` buffers become
`ℕ → ℚ` (engine functions) or `List ℚ` (the `prop_samp.v` value array), and
fallible functions return `Option`/error codes.  A fatal `transitASSERT` is
modelled as `none`; recoverable `transiterror(...ALLOWCONT)` paths return the
C error code.
-/

/-- The `okfinalexcess` constant of `makesample`/`makesample1` (1e-8). -/
def eps : ℚ := 1 / 100000000

/-- C conversion of a `double` to a signed integer: truncation toward zero
(`samp->n = ((1.0+okfinalexcess)*samp->f - samp->i)/samp->d + 1;`). -/
def ctrunc (q : ℚ) : ℤ := if 0 ≤ q then ⌊q⌋ else -⌊-q⌋

/-- The `prop_samp` structure (fields in C declaration order: number of
points `n`, spacing `d`, initial `i`, final `f`, oversampling `o`, value
array `v`, units factor `fct`). -/
structure prop_samp where
  n : ℤ
  d : ℚ
  i : ℚ
  f : ℚ
  o : ℤ
  v : List ℚ
  fct : ℚ
deriving DecidableEq

/-- The backward fill loop of `makesample`/`makesample1`
(`*v = si; v += --n; while(n) *v-- = si + n--*osd;`): writes positions
`k, k-1, ..., 1` of the array with `si + position*osd`. -/
def fillFrom (si osd : ℚ) : ℕ → List ℚ → List ℚ
  | 0, arr => arr
  | k+1, arr => fillFrom si osd k (arr.set (k+1) (si + ((k+1 : ℕ) : ℚ) * osd))

/-- Value materialization of `makesample`/`makesample1`: allocate `cnt`
zeroed slots (`calloc`), write `values[0] = si`, then run the backward fill
loop from position `cnt-1` down to `1`. -/
def fillvals (si osd : ℚ) (cnt : ℕ) : List ℚ :=
  fillFrom si osd (cnt - 1) ((List.replicate cnt (0 : ℚ)).set 0 si)

/-- Pre-oversampling point count of `makesample`/`makesample1`:
`samp->n = ((1.0+okfinalexcess)*samp->f - samp->i)/samp->d + 1;` (a
`double → long` truncating assignment) followed by the defensive sign flip
`if(samp->n<0) samp->n = -samp->n;`. -/
def spacedN (i f d : ℚ) : ℤ :=
  let ok : ℚ := if d < 0 then -eps else eps
  let n0 : ℤ := ctrunc (((1 + ok) * f - i) / d + 1)
  if n0 < 0 then -n0 else n0

/-- `makesample1` (`makesample.c:77-172`): derive a sampling purely from the
reference.  Returns the C result code together with the output `samp` state
(the input `samp` state is threaded so that untouched fields stay visible). -/
def makesample1 (samp ref : prop_samp) : Option (ℤ × prop_samp) :=
  let s1 : prop_samp := { samp with fct := ref.fct, i := ref.i, f := ref.f }
  if s1.f < s1.i then some (-3, s1)
  else if ref.d = 0 then some (-5, s1)
  else
    let s2 : prop_samp := { s1 with d := ref.d }
    let n1 : ℤ := spacedN s2.i s2.f s2.d
    if ref.o ≤ 0 then some (-6, { s2 with n := n1 })
    else
      let n2 : ℤ := (n1 - 1) * ref.o + 1
      let vs : List ℚ := fillvals s2.i (s2.d / (ref.o : ℚ)) n2.toNat
      some (0, { s2 with n := n2, o := ref.o, v := vs })

/-- Common tail of `makesample` (`makesample.c:291-351`): range check,
point count, oversampling resolution and value materialization, starting
from a state `s` whose `fct`, `i`, `f` and `d` fields are already resolved. -/
def msTail (s : prop_samp) (hintO refO : ℤ) (res : ℤ) : Option (ℤ × prop_samp) :=
  if (s.f ≤ s.i ∧ 0 < s.d) ∨ (s.i ≤ s.f ∧ s.d < 0) then some (-3, s)
  else
    let n1 : ℤ := spacedN s.i s.f s.d
    if hintO ≤ 0 ∧ refO ≤ 0 then some (-6, { s with n := n1 })
    else
      let o : ℤ := if hintO ≤ 0 then refO else hintO
      let n2 : ℤ := (n1 - 1) * o + 1
      let vs : List ℚ := fillvals s.i (s.d / (o : ℚ)) n2.toNat
      some (res, { s with n := n2, o := o, v := vs })

/-- `makesample` (`makesample.c:196-351`): derive a sampling from a hint and
a reference.  `none` models the fatal `transitASSERT(hint->d <= 0, ...)`. -/
def makesample (samp hint ref : prop_samp) : Option (ℤ × prop_samp) :=
  let res : ℤ := (if hint.i ≤ 0 then 1 else 0) + (if hint.f ≤ 0 then 2 else 0)
  let s1 : prop_samp :=
    { samp with fct := if hint.fct ≤ 0 then ref.fct else hint.fct,
                i := if hint.i ≤ 0 then ref.i else hint.i,
                f := if hint.f ≤ 0 then ref.f else hint.f }
  if hint.d = 0 then
    if ref.d = 0 ∧ ref.n ≤ 0 then some (-5, s1)
    else if ref.d = 0 then
      -- fixed reference array path (`makesample.c:256-278`): copy the
      -- reference array verbatim and return early, dropping oversampling.
      some (res, { s1 with n := ref.n, d := 0, v := ref.v.take ref.n.toNat, o := 0 })
    else msTail { s1 with d := ref.d } hint.o ref.o res
  else if hint.d < 0 then none
  else msTail { s1 with d := hint.d } hint.o ref.o res

/-- Forward elimination loop of `tri` (`makesample.c:679-683`): iterations
`i = 1..m` update `d[i] -= xmult*c[i-1]` and `b[i] -= xmult*b[i-1]` with
`xmult = a[i-1]/d[i-1]`, reading the already-updated `d[i-1]`, `b[i-1]`. -/
def triFwd (a c d b : ℕ → ℚ) : ℕ → (ℕ → ℚ) × (ℕ → ℚ)
  | 0 => (d, b)
  | m+1 =>
    let p := triFwd a c d b m
    let xm := a m / p.1 m
    (Function.update p.1 (m+1) (p.1 (m+1) - xm * c m),
     Function.update p.2 (m+1) (p.2 (m+1) - xm * p.2 m))

/-- Backward substitution loop of `tri` (`makesample.c:687-689`): iterations
`j = m..1` (descending) set `e[j] = (b[j-1] - c[j-1]*e[j+1])/d[j-1]`. -/
def triBack (c d b : ℕ → ℚ) : ℕ → (ℕ → ℚ) → (ℕ → ℚ)
  | 0, e => e
  | j+1, e => triBack c d b j (Function.update e (j+1) ((b j - c j * e (j+2)) / d j))

/-- `tri` (`makesample.c:669-694`): tridiagonal Gaussian elimination.  The C
function mutates `d`, `b` and `e` in place; the embedding returns the final
contents of the three buffers (in that order). -/
def tri (a d c b e : ℕ → ℚ) (n : ℕ) : (ℕ → ℚ) × (ℕ → ℚ) × (ℕ → ℚ) :=
  let p := triFwd a c d b n
  let e1 := Function.update e (n-1) (p.2 (n-1) / p.1 (n-1))
  let e2 := triBack c p.1 p.2 n e1
  (p.1, p.2, Function.update (Function.update e2 0 0) (n+1) 0)

/-- Interval scan of `spline3` (`makesample.c:711-715`): the last index
`i < m` with `xi[i] <= x`; the C variable `j` is uninitialized when no index
qualifies, modelled here as `0` (unreachable for in-domain queries). -/
def scanj (xi : ℕ → ℚ) (xq : ℚ) : ℕ → ℕ
  | 0 => 0
  | m+1 => if xi m ≤ xq then m else scanj xi xq m

/-- The cubic evaluation of `spline3` (`makesample.c:716-720`), with the C
locals `amult`, `bmult`, `cmult`, `dx` inlined:
`y = yi[j] + dx*cmult + dx*dx*bmult + dx*dx*dx*amult`. -/
def splineFormula3 (xi yi z h : ℕ → ℚ) (j : ℕ) (xq : ℚ) : ℚ :=
  yi j
    + (xq - xi j) * ((yi (j+1) - yi j) / h j - h j / 6 * (z (j+1) + 2 * z j))
    + (xq - xi j) * (xq - xi j) * (z j / 2)
    + (xq - xi j) * (xq - xi j) * (xq - xi j) * ((z (j+1) - z j) / (6 * h j))

/-- `spline3` evaluated at one output point (`makesample.c:710-721`). -/
def spline3val (xi yi z h : ℕ → ℚ) (N : ℕ) (xq : ℚ) : ℚ :=
  splineFormula3 xi yi z h (scanj xi xq (N-1)) xq

/-- `spline3` bulk evaluation (`makesample.c:696-724`): each output slot `n`
receives the cubic evaluated at `x[n]`. -/
def spline3arr (xi yi x z h : ℕ → ℚ) (N : ℕ) : ℕ → ℚ :=
  fun n => spline3val xi yi z h N (x n)

/-- C `int` division by 2 as used for `midindex = (first + last)/2` in
`splinterp_pt` (truncation toward zero). -/
def cdiv2 (m : ℤ) : ℤ := if 0 ≤ m then m / 2 else -((-m) / 2)

lemma cdiv2_nonneg (m : ℤ) (h : 0 ≤ m) : cdiv2 m = m / 2 := by
  rw [cdiv2, if_pos h]

lemma cdiv2_bounds (a b : ℤ) (h : a ≤ b) : a ≤ cdiv2 (a + b) ∧ cdiv2 (a + b) ≤ b := by
  rw [cdiv2]; split <;> omega

/-- The binary search loop of `splinterp_pt` (`makesample.c:806-828`).
`none` models falling out of the `while(first<=last)` loop without a
`break`, which in C leaves `index` uninitialized. -/
def bs (x : ℕ → ℚ) (xout : ℚ) (first last : ℤ) : Option ℤ :=
  if h1 : first ≤ last then
    if x (cdiv2 (first + last)).toNat < xout ∧ xout < x ((cdiv2 (first + last)).toNat + 1) then
      some (cdiv2 (first + last))
    else if x (cdiv2 (first + last)).toNat < xout then
      bs x xout (cdiv2 (first + last) + 1) last
    else if xout < x (cdiv2 (first + last)).toNat then
      bs x xout first (cdiv2 (first + last) - 1)
    else some (cdiv2 (first + last))
  else none
termination_by (last + 1 - first).toNat
decreasing_by
  · have := cdiv2_bounds first last h1
    omega
  · have := cdiv2_bounds first last h1
    omega

/-- The evaluation tail of `splinterp_pt` (`makesample.c:830-859`) at a found
interval index, with the C locals `x_lo`, `x_hi`, `y_lo`, `y_hi`, `h`, `dy`,
`dx`, `a`, `b`, `c` inlined; the cubic is evaluated in Horner form
`yout = y_lo + dx*(c + dx*(b + dx*a))`. -/
def splinterpPtFormula (z x y : ℕ → ℚ) (idx : ℕ) (xout : ℚ) : ℚ :=
  if x idx = xout then y idx
  else if 0 < x (idx+1) - x idx then
    y idx + (xout - x idx) *
      ((y (idx+1) - y idx) / (x (idx+1) - x idx)
         - (x (idx+1) - x idx) / 6 * (z (idx+1) + 2 * z idx)
       + (xout - x idx) * (z idx / 2
           + (xout - x idx) * ((z (idx+1) - z idx) / (6 * (x (idx+1) - x idx)))))
  else 0

/-- `splinterp_pt` (`makesample.c:798-860`): point evaluation against a
precomputed `z`, locating the interval by binary search over `x`. -/
def splinterp_pt (z : ℕ → ℚ) (N : ℕ) (x y : ℕ → ℚ) (xout : ℚ) : Option ℚ :=
  match bs x xout 0 (N : ℤ) with
  | none => none
  | some idx => some (splinterpPtFormula z x y idx.toNat xout)

/-- The offset used by `geth` and `simpson`: `1` when the number of samples
`n` is even (skip the first interval), else `0`. -/
def sOff (n : ℕ) : ℕ := if n % 2 = 0 then 1 else 0

/-- `geth`'s `hsum` array (`makesample.c:952-958`): `h[j] + h[j+1]` with
`j = 2i + offset`, for `i < n/2`; untouched (`calloc`-zero) elsewhere. -/
def gethHsum (h : ℕ → ℚ) (n : ℕ) : ℕ → ℚ := fun i =>
  if i < n / 2 then h (2*i + sOff n) + h (2*i + sOff n + 1) else 0

/-- `geth`'s `hratio` array: `h[j+1]/h[j]` with `j = 2i + offset`. -/
def gethHratio (h : ℕ → ℚ) (n : ℕ) : ℕ → ℚ := fun i =>
  if i < n / 2 then h (2*i + sOff n + 1) / h (2*i + sOff n) else 0

/-- `geth`'s `hfactor` array: `hsum[i]^2/(h[j]*h[j+1])` with `j = 2i + offset`. -/
def gethHfactor (h : ℕ → ℚ) (n : ℕ) : ℕ → ℚ := fun i =>
  if i < n / 2 then
    (h (2*i + sOff n) + h (2*i + sOff n + 1)) * (h (2*i + sOff n) + h (2*i + sOff n + 1))
      / (h (2*i + sOff n) * h (2*i + sOff n + 1))
  else 0

/-- The accumulation loop of `simpson` (`makesample.c:1044-1050`): partial
sums of `(y[j]*(2-hratio[i]) + y[j+1]*hfactor[i] + y[j+2]*(2-1/hratio[i]))*hsum[i]`
with `j = 2i + off`. -/
def simpsonSum (y hs hr hf : ℕ → ℚ) (off : ℕ) : ℕ → ℚ
  | 0 => 0
  | m+1 => simpsonSum y hs hr hf off m +
      (y (2*m + off) * (2 - hr m) + y (2*m + off + 1) * hf m
        + y (2*m + off + 2) * (2 - 1 / hr m)) * hs m

/-- `simpson` (`makesample.c:1028-1053`): the loop runs for `i < (n-1)/2`
with offset `1` when `n` is even, and the total is divided by 6. -/
def simpson (y hs hr hf : ℕ → ℚ) (n : ℕ) : ℚ :=
  simpsonSum y hs hr hf (sOff n) ((n-1)/2) / 6

/-- `simps` (`makesample.c:990-1012`): `0` for one sample, the trapezoid for
two, else the Simpson accumulation, plus the trapezoidal contribution of the
skipped first interval when `n` is even. -/
def simps (y h hs hr hf : ℕ → ℚ) (n : ℕ) : ℚ :=
  if n = 1 then 0
  else if n = 2 then h 0 * (y 0 + y 1) / 2
  else if n % 2 = 0 then simpson y hs hr hf n + h 0 * (y 0 + y 1) / 2
  else simpson y hs hr hf n

/-- `restsample_arr` (`makesample.c:1136-1151`): validate the stored count,
then read that many values from the input stream.  Returns the C result
code, the restored value array, and the unconsumed remainder of the stream.
`calloc` is modelled as always succeeding (the `-3` path is not modelled). -/
def restsample_arr (n : ℤ) (stream : List ℚ) : ℤ × List ℚ × List ℚ :=
  if n < 0 then (-2, [], stream)
  else if 1000000 < n then (1, [], stream)
  else if n = 0 then (0, [], stream)
  else if n.toNat ≤ stream.length then (0, stream.take n.toNat, stream.drop n.toNat)
  else (-1, stream.take n.toNat ++ List.replicate (n.toNat - stream.length) 0, [])

/-- `savesample`/`savesample_arr` (`makesample.c:1093-1108`): the header is
the `fwrite` of the whole struct (whose `v` pointer carries no information,
modelled as `[]`), followed by `n` values when `n > 0`. -/
def savesample (s : prop_samp) : prop_samp × List ℚ :=
  ({ s with v := [] }, if 0 < s.n then s.v.take s.n.toNat else [])

/-- `restsample` (`makesample.c:1119-1125`): read the header struct, then
restore the value array via `restsample_arr`. -/
def restsample (hdr : prop_samp) (stream : List ℚ) : ℤ × prop_samp :=
  ((restsample_arr hdr.n stream).1, { hdr with v := (restsample_arr hdr.n stream).2.1 })

lemma fillFrom_length (si osd : ℚ) (k : ℕ) (arr : List ℚ) :
    (fillFrom si osd k arr).length = arr.length := by
  induction k generalizing arr with
  | zero => rfl
  | succ k ih => rw [fillFrom, ih, List.length_set]

lemma fillFrom_getD (si osd : ℚ) (k : ℕ) (arr : List ℚ) (idx : ℕ) :
    (fillFrom si osd k arr).getD idx 0 =
      if 1 ≤ idx ∧ idx ≤ k ∧ idx < arr.length then si + (idx : ℚ) * osd
      else arr.getD idx 0 := by
  induction k generalizing arr with
  | zero => rw [fillFrom, if_neg (by omega)]
  | succ k ih =>
    rw [fillFrom, ih]
    by_cases hlen : idx < arr.length
    · by_cases h1 : idx = k + 1
      · subst h1
        rw [if_neg (by omega), if_pos ⟨by omega, by omega, hlen⟩,
          List.getD_eq_getElem?_getD, List.getElem?_set_self hlen]
        rfl
      · by_cases h2 : 1 ≤ idx ∧ idx ≤ k
        · rw [if_pos ⟨h2.1, h2.2, by simpa using hlen⟩, if_pos ⟨h2.1, by omega, hlen⟩]
        · rw [if_neg (by simp only [List.length_set]; omega), if_neg (by omega),
            List.getD_eq_getElem?_getD, List.getD_eq_getElem?_getD,
            List.getElem?_set_ne (by omega : k + 1 ≠ idx)]
    · rw [if_neg (by simp only [List.length_set]; omega), if_neg (by omega)]
      by_cases h1 : idx = k + 1
      · subst h1
        rw [List.set_eq_of_length_le (by omega)]
      · rw [List.getD_eq_getElem?_getD, List.getD_eq_getElem?_getD,
          List.getElem?_set_ne (by omega : k + 1 ≠ idx)]

lemma fillvals_length (si osd : ℚ) (cnt : ℕ) : (fillvals si osd cnt).length = cnt := by
  rw [fillvals, fillFrom_length, List.length_set, List.length_replicate]

lemma fillvals_getD (si osd : ℚ) (cnt idx : ℕ) (h : idx < cnt) :
    (fillvals si osd cnt).getD idx 0 = si + (idx : ℚ) * osd := by
  rw [fillvals, fillFrom_getD]
  by_cases h0 : idx = 0
  · subst h0
    rw [if_neg (by omega), List.getD_eq_getElem?_getD,
      List.getElem?_set_self (by simpa using h)]
    simp
  · rw [if_pos ⟨by omega, by omega, by simp; omega⟩]

lemma ctrunc_of_nonneg (q : ℚ) (h : 0 ≤ q) : ctrunc q = ⌊q⌋ := by
  rw [ctrunc, if_pos h]

def C1con (s : prop_samp) : Prop :=
  s.n = (ctrunc (((1 + eps) * s.f - s.i) / s.d + 1) - 1) * s.o + 1 ∧
  s.v.length = s.n.toNat ∧
  s.v.getD 0 0 = s.i ∧
  0 ≤ (1 + eps) * s.f - s.v.getD (s.n.toNat - 1) 0 ∧
  (1 + eps) * s.f - s.v.getD (s.n.toNat - 1) 0 < s.d

lemma sample_core (fct i f d : ℚ) (o : ℤ)
    (hi : 0 ≤ i) (hif : i ≤ f) (hd : 0 < d) (ho : 0 < o) :
    C1con ⟨(spacedN i f d - 1) * o + 1, d, i, f, o,
           fillvals i (d / (o : ℚ)) ((spacedN i f d - 1) * o + 1).toNat, fct⟩ := by
  have heps : (0 : ℚ) < eps := by norm_num [eps]
  have hf0 : 0 ≤ f := le_trans hi hif
  have hnum : 0 ≤ (1 + eps) * f - i := by nlinarith
  set q : ℚ := ((1 + eps) * f - i) / d with hqdef
  have hq0 : 0 ≤ q := div_nonneg hnum hd.le
  have hfl0 : 0 ≤ ⌊q⌋ := Int.floor_nonneg.mpr hq0
  have hct : ctrunc (q + 1) = ⌊q⌋ + 1 := by
    rw [ctrunc_of_nonneg _ (by linarith), Int.floor_add_one]
  have hsp : spacedN i f d = ⌊q⌋ + 1 := by
    simp only [spacedN, if_neg (not_lt.mpr hd.le), ← hqdef, hct]
    rw [if_neg (by omega)]
  have hn2 : (spacedN i f d - 1) * o + 1 = ⌊q⌋ * o + 1 := by rw [hsp]; ring
  have hprod : 0 ≤ ⌊q⌋ * o := mul_nonneg hfl0 ho.le
  have hn2pos : 1 ≤ (spacedN i f d - 1) * o + 1 := by omega
  have htn : ((spacedN i f d - 1) * o + 1).toNat = (⌊q⌋ * o).toNat + 1 := by omega
  have hlast : ((spacedN i f d - 1) * o + 1).toNat - 1 = (⌊q⌋ * o).toNat := by omega
  have ho0 : (o : ℚ) ≠ 0 := Int.cast_ne_zero.mpr (by omega)
  have hqd : q * d = (1 + eps) * f - i := div_mul_cancel₀ _ (ne_of_gt hd)
  have hcast : (((⌊q⌋ * o).toNat : ℕ) : ℚ) = (⌊q⌋ : ℚ) * (o : ℚ) := by
    rw [← Int.cast_natCast (R := ℚ), Int.toNat_of_nonneg hprod, Int.cast_mul]
  have hlastval :
      (fillvals i (d / (o : ℚ)) ((spacedN i f d - 1) * o + 1).toNat).getD
        (((spacedN i f d - 1) * o + 1).toNat - 1) 0 = i + (⌊q⌋ : ℚ) * d := by
    rw [hlast, fillvals_getD _ _ _ _ (by omega), hcast]
    field_simp
    ring
  have hfr0 : 0 ≤ q - ⌊q⌋ := sub_nonneg.mpr (Int.floor_le q)
  have hfr1 : q - ⌊q⌋ < 1 := by
    have := Int.lt_floor_add_one q
    push_cast at this ⊢
    linarith
  refine ⟨?_, ?_, ?_, ?_, ?_⟩
  · show (spacedN i f d - 1) * o + 1 = (ctrunc (((1 + eps) * f - i) / d + 1) - 1) * o + 1
    rw [← hqdef, hct, hn2]
    ring
  · exact fillvals_length _ _ _
  · show (fillvals i (d / (o : ℚ)) ((spacedN i f d - 1) * o + 1).toNat).getD 0 0 = i
    rw [fillvals_getD _ _ _ _ (by omega)]
    simp
  · show 0 ≤ (1 + eps) * f -
      (fillvals i (d / (o : ℚ)) ((spacedN i f d - 1) * o + 1).toNat).getD
        (((spacedN i f d - 1) * o + 1).toNat - 1) 0
    rw [hlastval]
    have : (1 + eps) * f - (i + (⌊q⌋ : ℚ) * d) = (q - ⌊q⌋) * d := by
      linear_combination -hqd
    rw [this]
    exact mul_nonneg hfr0 hd.le
  · show (1 + eps) * f -
      (fillvals i (d / (o : ℚ)) ((spacedN i f d - 1) * o + 1).toNat).getD
        (((spacedN i f d - 1) * o + 1).toNat - 1) 0 < d
    rw [hlastval]
    have : (1 + eps) * f - (i + (⌊q⌋ : ℚ) * d) = (q - ⌊q⌋) * d := by
      linear_combination -hqd
    rw [this]
    nlinarith

lemma msTail_C1 (s0 : prop_samp) (hintO refO res r : ℤ) (s : prop_samp)
    (h : msTail s0 hintO refO res = some (r, s)) (hr : 0 ≤ r)
    (hd : 0 < s.d) (hi : 0 ≤ s.i) : C1con s := by
  simp only [msTail] at h
  split at h
  · simp only [Option.some.injEq, Prod.mk.injEq] at h
    omega
  · split at h
    · simp only [Option.some.injEq, Prod.mk.injEq] at h
      omega
    · simp only [Option.some.injEq, Prod.mk.injEq] at h
      obtain ⟨hr0, hs⟩ := h
      subst hs
      rename_i hrange hover
      refine sample_core s0.fct s0.i s0.f s0.d _ hi ?_ hd ?_
      · rcases not_or.mp hrange with ⟨h1, _⟩
        exact not_lt.mp fun hlt => h1 ⟨le_of_lt hlt, hd⟩
      · split <;> omega

/-- C1 (amended): on every successful spacing-driven run of `makesample1` or
`makesample` with resolved positive spacing and nonnegative initial bound,
the final count is `(pre - 1)*oversample + 1` where the pre-oversampling
count `pre` is the C truncation `trunc(((1+eps)*final - initial)/spacing + 1)`
(not `round(...) + 1`), `values[0] = initial` exactly, and the last value
falls short of `final*(1+eps)` by less than one pre-oversampling spacing
(not within `spacing/oversample` of `final`). -/
theorem C1_amended_theorem :
    (∀ samp ref r s, makesample1 samp ref = some (r, s) →
      0 ≤ r → 0 < s.d → 0 ≤ s.i → C1con s) ∧
    (∀ samp hint ref r s, makesample samp hint ref = some (r, s) →
      0 ≤ r → 0 < s.d → 0 ≤ s.i → C1con s) := by
  constructor
  · intro samp ref r s h hr hd hi
    simp only [makesample1] at h
    split at h
    · simp only [Option.some.injEq, Prod.mk.injEq] at h
      omega
    · split at h
      · simp only [Option.some.injEq, Prod.mk.injEq] at h
        omega
      · split at h
        · simp only [Option.some.injEq, Prod.mk.injEq] at h
          omega
        · simp only [Option.some.injEq, Prod.mk.injEq] at h
          obtain ⟨hr0, hs⟩ := h
          subst hs
          rename_i hlt _ hoo
          exact sample_core ref.fct ref.i ref.f ref.d ref.o hi (not_lt.mp hlt) hd
            (by omega)
  · intro samp hint ref r s h hr hd hi
    rw [makesample] at h
    by_cases h1 : hint.d = 0
    · rw [if_pos h1] at h
      by_cases h2 : ref.d = 0 ∧ ref.n ≤ 0
      · rw [if_pos h2] at h
        simp only [Option.some.injEq, Prod.mk.injEq] at h
        omega
      · rw [if_neg h2] at h
        by_cases h3 : ref.d = 0
        · rw [if_pos h3] at h
          simp only [Option.some.injEq, Prod.mk.injEq] at h
          obtain ⟨hr0, hs⟩ := h
          subst hs
          simp at hd
        · rw [if_neg h3] at h
          exact msTail_C1 _ _ _ _ _ _ h hr hd hi
    · rw [if_neg h1] at h
      by_cases h4 : hint.d < 0
      · rw [if_pos h4] at h
        exact absurd h (by simp)
      · rw [if_neg h4] at h
        exact msTail_C1 _ _ _ _ _ _ h hr hd hi

/-- A zero-initialized output `prop_samp` (the typical caller state). -/
def mk0 : prop_samp := ⟨0, 0, 0, 0, 0, [], 0⟩

/-- Reference sampling of the spec's concrete scenario:
`initial=1, final=2, spacing=0.5, oversample=2`. -/
def refW : prop_samp := ⟨0, 1/2, 1, 2, 2, [], 1⟩

/-- Output of `makesample1` on `refW`. -/
def sW : prop_samp := ⟨5, 1/2, 1, 2, 2, [1, 5/4, 3/2, 7/4, 2], 1⟩

theorem C1_witness : makesample1 mk0 refW = some (0, sW) ∧ C1con sW := by
  have h : makesample1 mk0 refW = some (0, sW) := by
    norm_num [makesample1, spacedN, ctrunc, eps, fillvals, fillFrom, List.replicate,
      List.set, mk0, refW, sW, prop_samp.mk.injEq]
  exact ⟨h, C1_amended_theorem.1 mk0 refW 0 sW h le_rfl (by norm_num [sW]) (by norm_num [sW])⟩

/-- Reference sampling refuting C1 as stated: `initial=0, final=2.9,
spacing=1, oversample=2`. -/
def refC1 : prop_samp := ⟨0, 1, 0, 29/10, 2, [], 1⟩

/-- Output of `makesample1` on `refC1`. -/
def sC1 : prop_samp := ⟨5, 1, 0, 29/10, 2, [0, 1/2, 1, 3/2, 2], 1⟩

/-- C1 (counterexample): on `refC1` the run succeeds with 5 points, but
`round(((1+eps)*final - initial)/spacing) + 1 = 4` pre-oversampling points
would give a final count of 7 (the code truncates, getting 3 and 5), and the
last value 2 is not within `spacing/oversample = 1/2` of `final = 2.9`. -/
theorem C1_counterexample :
    makesample1 mk0 refC1 = some (0, sC1) ∧
    0 < sC1.d ∧ 1 ≤ sC1.o ∧
    sC1.n ≠ ((round (((1 + eps) * sC1.f - sC1.i) / sC1.d) + 1) - 1) * sC1.o + 1 ∧
    ¬ |sC1.f - sC1.v.getD (sC1.n.toNat - 1) 0| ≤ sC1.d / (sC1.o : ℚ) := by
  refine ⟨?_, by norm_num [sC1], by norm_num [sC1], ?_, ?_⟩
  · norm_num [makesample1, spacedN, ctrunc, eps, fillvals, fillFrom, List.replicate,
      List.set, mk0, refC1, sC1, prop_samp.mk.injEq]
  · have hr3 : round ((1 + eps) * (29/10 : ℚ)) = 3 := by
      rw [round_eq]
      norm_num [eps]
    norm_num [sC1, hr3]
  · have hv : sC1.v.getD (sC1.n.toNat - 1) 0 = 2 := rfl
    rw [hv]
    norm_num [sC1, abs_le]

/-- C2 (amended): the value-materialization step fills the array so that
`values[0] = initial` and `values[index] = initial + index*effective_spacing`
for every position (ascending from the start; `values[n-1]` is
`initial + (n-1)*effective_spacing`, not `initial`). -/
theorem C2_amended_theorem (si osd : ℚ) (cnt idx : ℕ) (h : idx < cnt) :
    (fillvals si osd cnt).getD idx 0 = si + (idx : ℚ) * osd ∧
    (fillvals si osd cnt).getD 0 0 = si ∧
    (fillvals si osd cnt).length = cnt := by
  refine ⟨fillvals_getD si osd cnt idx h, ?_, fillvals_length si osd cnt⟩
  rw [fillvals_getD si osd cnt 0 (by omega)]
  simp

theorem C2_witness :
    2 < 3 ∧
    ((fillvals 1 (1/2) 3).getD 2 0 = 1 + ((2 : ℕ) : ℚ) * (1/2) ∧
     (fillvals 1 (1/2) 3).getD 0 0 = 1 ∧
     (fillvals 1 (1/2) 3).length = 3) :=
  ⟨by norm_num, C2_amended_theorem 1 (1/2) 3 2 (by norm_num)⟩

/-- Reference sampling refuting C2 as stated: `initial=1, final=3,
spacing=1, oversample=1`. -/
def refC2 : prop_samp := ⟨0, 1, 1, 3, 1, [], 1⟩

/-- Output of `makesample1` on `refC2`. -/
def sC2 : prop_samp := ⟨3, 1, 1, 3, 1, [1, 2, 3], 1⟩

/-- C2 (counterexample): the generated sample `[1, 2, 3]` has
`values[n-1] = 3 ≠ 1 = initial`, refuting the claimed backward
parameterization `values[n-1] = initial`. -/
theorem C2_counterexample :
    makesample1 mk0 refC2 = some (0, sC2) ∧
    sC2.v.getD (sC2.n.toNat - 1) 0 ≠ sC2.i := by
  constructor
  · norm_num [makesample1, spacedN, ctrunc, eps, fillvals, fillFrom, List.replicate,
      List.set, mk0, refC2, sC2, prop_samp.mk.injEq]
  · have hv : sC2.v.getD (sC2.n.toNat - 1) 0 = 3 := rfl
    rw [hv]
    norm_num [sC2]

/-- C7: `restsample_arr` returns CorruptData (-2) iff the stored count is
negative; counts above 1,000,000 give the advisory code 1; counts in
[0, 1,000,000] with enough input data give 0 after consuming exactly
`count` values (none when the count is 0). -/
theorem C7_theorem (n : ℤ) (stream : List ℚ) :
    ((restsample_arr n stream).1 = -2 ↔ n < 0) ∧
    (1000000 < n → (restsample_arr n stream).1 = 1) ∧
    (0 ≤ n → n ≤ 1000000 → n.toNat ≤ stream.length →
      (restsample_arr n stream).1 = 0 ∧
      (restsample_arr n stream).2.1 = stream.take n.toNat ∧
      (restsample_arr n stream).2.2 = stream.drop n.toNat ∧
      (restsample_arr n stream).2.1.length = n.toNat) := by
  rw [restsample_arr]
  by_cases h1 : n < 0
  · rw [if_pos h1]
    exact ⟨by simp [h1], fun h => absurd h (by omega), fun h => absurd h (by omega)⟩
  · rw [if_neg h1]
    by_cases h2 : 1000000 < n
    · rw [if_pos h2]
      exact ⟨by constructor <;> intro h <;> omega, fun _ => rfl,
        fun _ h => absurd h (by omega)⟩
    · rw [if_neg h2]
      by_cases h3 : n = 0
      · rw [if_pos h3]
        refine ⟨by constructor <;> intro h <;> omega, fun h => absurd h (by omega),
          fun _ _ _ => ⟨rfl, ?_, ?_, ?_⟩⟩ <;> simp [h3]
      · rw [if_neg h3]
        by_cases h4 : n.toNat ≤ stream.length
        · rw [if_pos h4]
          refine ⟨by constructor <;> intro h <;> omega, fun h => absurd h (by omega),
            fun _ _ _ => ⟨rfl, rfl, rfl, ?_⟩⟩
          rw [List.length_take]
          omega
        · rw [if_neg h4]
          exact ⟨by constructor <;> intro h <;> omega, fun h => absurd h (by omega),
            fun _ _ h => absurd h h4⟩

theorem C7_witness :
    ((restsample_arr (-1) []).1 = -2) ∧
    ((restsample_arr 2000000 []).1 = 1 ∧ ¬(2000000 : ℤ) ≤ 1000000) ∧
    ((restsample_arr 2 [3, 4, 5]).1 = 0 ∧
     (restsample_arr 2 [3, 4, 5]).2.1 = [3, 4] ∧
     (restsample_arr 2 [3, 4, 5]).2.1.length = 2) ∧
    ((restsample_arr 0 [3]).1 = 0 ∧ (restsample_arr 0 [3]).2.1 = []) := by
  have h1 := (C7_theorem (-1) []).1.mpr (by norm_num)
  have h2 := (C7_theorem 2000000 []).2.1 (by norm_num)
  have h3 := (C7_theorem 2 [3, 4, 5]).2.2 (by norm_num) (by norm_num) (by norm_num)
  have h4 := (C7_theorem 0 [3]).2.2 (by norm_num) (by norm_num) (by norm_num)
  exact ⟨h1, ⟨h2, by norm_num⟩, ⟨h3.1, h3.2.1, h3.2.2.2⟩, ⟨h4.1, h4.2.1⟩⟩

/-- C8: serializing a valid `prop_samp` (count in [0, 1,000,000], value array
of length count) with `savesample` and restoring with `restsample` returns
success (0) and reproduces the identical structure (all header fields and the
value sequence). -/
theorem C8_theorem (s : prop_samp) (h0 : 0 ≤ s.n) (h1 : s.n ≤ 1000000)
    (hv : s.v.length = s.n.toNat) :
    restsample (savesample s).1 (savesample s).2 = (0, s) := by
  obtain ⟨n, d, i, f, o, v, fct⟩ := s
  simp only at h0 h1 hv
  rw [savesample, restsample]
  dsimp only
  by_cases hn : n = 0
  · subst hn
    have hvnil : v = [] := List.eq_nil_of_length_eq_zero (by simpa using hv)
    subst hvnil
    rfl
  · have hpos : (0 : ℤ) < n := by omega
    rw [if_pos hpos]
    have ht : v.take n.toNat = v := by rw [← hv, List.take_length]
    rw [ht, restsample_arr, if_neg (by omega), if_neg (by omega), if_neg hn,
      if_pos (le_of_eq hv.symm), ht]

/-- A concrete valid sample for the C8 round-trip witness. -/
def sRT : prop_samp := ⟨2, 1/2, 1, 2, 1, [3, 4], 1⟩

theorem C8_witness :
    (0 ≤ sRT.n ∧ sRT.n ≤ 1000000 ∧ sRT.v.length = sRT.n.toNat) ∧
    restsample (savesample sRT).1 (savesample sRT).2 = (0, sRT) :=
  ⟨⟨by norm_num [sRT], by norm_num [sRT], rfl⟩,
   C8_theorem sRT (by norm_num [sRT]) (by norm_num [sRT]) rfl⟩

/-- C9 (amended): when the hint supplies positive bounds with
`final < initial` and the resolved spacing is positive (the hint supplies a
positive spacing, or supplies none and the reference spacing is positive),
`makesample` fails with InvalidRange (-3) and performs no allocation: the
output sample's `v`, `n` and `o` fields are left untouched. -/
theorem C9_amended_theorem (samp hint ref : prop_samp)
    (hf : 0 < hint.f) (hfi : hint.f < hint.i)
    (hd : 0 < hint.d ∨ (hint.d = 0 ∧ 0 < ref.d)) :
    ∃ s, makesample samp hint ref = some (-3, s) ∧
      s.v = samp.v ∧ s.n = samp.n ∧ s.o = samp.o := by
  have hi : 0 < hint.i := lt_trans hf hfi
  have hnf : ¬ hint.f ≤ 0 := not_le.mpr hf
  have hni : ¬ hint.i ≤ 0 := not_le.mpr hi
  rcases hd with hd | ⟨hd0, hrd⟩
  · refine ⟨⟨samp.n, hint.d, hint.i, hint.f, samp.o, samp.v,
      if hint.fct ≤ 0 then ref.fct else hint.fct⟩, ?_, rfl, rfl, rfl⟩
    rw [makesample]
    simp only [if_neg hnf, if_neg hni]
    rw [if_neg (ne_of_gt hd), if_neg (not_lt.mpr hd.le), msTail]
    rw [if_pos (Or.inl ⟨le_of_lt hfi, hd⟩)]
  · refine ⟨⟨samp.n, ref.d, hint.i, hint.f, samp.o, samp.v,
      if hint.fct ≤ 0 then ref.fct else hint.fct⟩, ?_, rfl, rfl, rfl⟩
    rw [makesample]
    simp only [if_neg hnf, if_neg hni]
    rw [if_pos hd0, if_neg (by intro hc; exact absurd hc.1 (ne_of_gt hrd)),
      if_neg (ne_of_gt hrd), msTail]
    rw [if_pos (Or.inl ⟨le_of_lt hfi, hrd⟩)]

/-- Baseline output sample whose fields witness the absence of allocation. -/
def sampC9 : prop_samp := ⟨7, 9, 9, 9, 9, [9], 9⟩

/-- Hint with positive bounds, final < initial and positive spacing. -/
def hintC9 : prop_samp := ⟨0, 1, 2, 1, 0, [], 1⟩

theorem C9_witness :
    (0 < hintC9.f ∧ hintC9.f < hintC9.i ∧ 0 < hintC9.d) ∧
    (∃ s, makesample sampC9 hintC9 mk0 = some (-3, s) ∧
      s.v = sampC9.v ∧ s.n = sampC9.n ∧ s.o = sampC9.o) :=
  ⟨⟨by norm_num [hintC9], by norm_num [hintC9], by norm_num [hintC9]⟩,
   C9_amended_theorem sampC9 hintC9 mk0 (by norm_num [hintC9]) (by norm_num [hintC9])
     (Or.inl (by norm_num [hintC9]))⟩

/-- Hint with positive bounds, final < initial, and no spacing (d = 0). -/
def hintC9x : prop_samp := ⟨0, 0, 2, 1, 0, [], 1⟩

/-- Reference supplying a fixed array (no spacing, one point). -/
def refC9x : prop_samp := ⟨1, 0, 0, 0, 0, [5], 1⟩

/-- C9 (counterexample): with `hint.final = 1 < 2 = hint.initial` (both
positive) but no hinted spacing and a fixed reference array, `makesample`
succeeds with code 0 (not InvalidRange = -3) and does allocate: it copies
the reference array into the output sample. -/
theorem C9_counterexample :
    0 < hintC9x.f ∧ hintC9x.f < hintC9x.i ∧
    makesample sampC9 hintC9x refC9x = some (0, ⟨1, 0, 2, 1, 0, [5], 1⟩) ∧
    ((0 : ℤ) ≠ -3) ∧ (⟨1, 0, 2, 1, 0, [5], 1⟩ : prop_samp).v ≠ sampC9.v := by
  refine ⟨by norm_num [hintC9x], by norm_num [hintC9x], ?_, by norm_num, ?_⟩
  · norm_num [makesample, msTail, sampC9, hintC9x, refC9x, prop_samp.mk.injEq]
  · norm_num [sampC9]

lemma triFwd_fst_frame (a c d b : ℕ → ℚ) (m j : ℕ) (hj : j = 0 ∨ m < j) :
    (triFwd a c d b m).1 j = d j := by
  induction m with
  | zero => rfl
  | succ m ih =>
    rw [triFwd]
    simp only
    rw [Function.update_noteq (by omega)]
    exact ih (by omega)

lemma triFwd_snd_frame (a c d b : ℕ → ℚ) (m j : ℕ) (hj : j = 0 ∨ m < j) :
    (triFwd a c d b m).2 j = b j := by
  induction m with
  | zero => rfl
  | succ m ih =>
    rw [triFwd]
    simp only
    rw [Function.update_noteq (by omega)]
    exact ih (by omega)

lemma triFwd_stable (a c d b : ℕ → ℚ) (i m : ℕ) (him : i ≤ m) :
    (triFwd a c d b m).1 i = (triFwd a c d b i).1 i ∧
    (triFwd a c d b m).2 i = (triFwd a c d b i).2 i := by
  induction m with
  | zero =>
    have : i = 0 := by omega
    subst this
    exact ⟨rfl, rfl⟩
  | succ m ih =>
    by_cases h : i = m + 1
    · subst h
      exact ⟨rfl, rfl⟩
    · have hi : i ≤ m := by omega
      rw [triFwd]
      simp only
      constructor
      · rw [Function.update_noteq (by omega)]
        exact (ih hi).1
      · rw [Function.update_noteq (by omega)]
        exact (ih hi).2

lemma triFwd_step (a c d b : ℕ → ℚ) (n m : ℕ) (hm : m + 1 ≤ n) :
    (triFwd a c d b n).1 (m+1) =
      d (m+1) - a m / (triFwd a c d b n).1 m * c m ∧
    (triFwd a c d b n).2 (m+1) =
      b (m+1) - a m / (triFwd a c d b n).1 m * (triFwd a c d b n).2 m := by
  have h1 := triFwd_stable a c d b (m+1) n hm
  have h2 := triFwd_stable a c d b m n (by omega)
  rw [h1.1, h1.2, h2.1, h2.2]
  constructor
  · rw [triFwd]
    simp only [Function.update_same]
    rw [triFwd_fst_frame a c d b m (m+1) (by omega),
      (triFwd_stable a c d b m m le_rfl).1]
  · rw [triFwd]
    simp only [Function.update_same]
    rw [triFwd_snd_frame a c d b m (m+1) (by omega),
      (triFwd_stable a c d b m m le_rfl).1,
      (triFwd_stable a c d b m m le_rfl).2]

/-- C10: `tri` overwrites `d[1..n]` and `b[1..n]` in place with the forward
elimination values (and leaves all other entries of `d` and `b` alone), and
the output buffer `e` carries the solution with both ends clamped:
`e[0] = 0` and `e[n+1] = 0` on return. -/
theorem C10_theorem (a d c b e : ℕ → ℚ) (n : ℕ) (hn : 1 ≤ n) :
    (tri a d c b e n).2.2 0 = 0 ∧
    (tri a d c b e n).2.2 (n+1) = 0 ∧
    (∀ j, j = 0 ∨ n < j → (tri a d c b e n).1 j = d j ∧ (tri a d c b e n).2.1 j = b j) ∧
    (∀ i, 1 ≤ i → i ≤ n →
      (tri a d c b e n).1 i = d i - a (i-1) / (tri a d c b e n).1 (i-1) * c (i-1) ∧
      (tri a d c b e n).2.1 i =
        b i - a (i-1) / (tri a d c b e n).1 (i-1) * (tri a d c b e n).2.1 (i-1)) := by
  refine ⟨?_, ?_, ?_, ?_⟩
  · simp only [tri]
    rw [Function.update_noteq (by omega : (0:ℕ) ≠ n+1), Function.update_same]
  · simp only [tri]
    rw [Function.update_same]
  · intro j hj
    exact ⟨triFwd_fst_frame a c d b n j hj, triFwd_snd_frame a c d b n j hj⟩
  · intro i h1 h2
    obtain ⟨m, rfl⟩ : ∃ m, i = m + 1 := ⟨i - 1, by omega⟩
    have := triFwd_step a c d b n m (by omega)
    simpa using this

/-- Concrete arrays for the C10 witness. -/
def aW : ℕ → ℚ := fun _ => 1

/-- Concrete diagonal for the C10 witness. -/
def dW : ℕ → ℚ := fun _ => 4

/-- Concrete right-hand side for the C10 witness. -/
def bW : ℕ → ℚ := fun i => (i : ℚ) + 1

/-- Concrete output buffer for the C10 witness. -/
def eW : ℕ → ℚ := fun _ => 0

theorem C10_witness :
    (1 ≤ 2) ∧
    (tri aW dW aW bW eW 2).2.2 0 = 0 ∧
    (tri aW dW aW bW eW 2).2.2 3 = 0 ∧
    ((tri aW dW aW bW eW 2).1 0 = dW 0 ∧ (tri aW dW aW bW eW 2).2.1 3 = bW 3) ∧
    ((tri aW dW aW bW eW 2).1 1 =
      dW 1 - aW 0 / (tri aW dW aW bW eW 2).1 0 * aW 0 ∧
     (tri aW dW aW bW eW 2).2.1 1 =
      bW 1 - aW 0 / (tri aW dW aW bW eW 2).1 0 * (tri aW dW aW bW eW 2).2.1 0) :=
  ⟨by norm_num,
   (C10_theorem aW dW aW bW eW 2 (by norm_num)).1,
   (C10_theorem aW dW aW bW eW 2 (by norm_num)).2.1,
   ⟨((C10_theorem aW dW aW bW eW 2 (by norm_num)).2.2.1 0 (Or.inl rfl)).1,
    ((C10_theorem aW dW aW bW eW 2 (by norm_num)).2.2.1 3 (Or.inr (by norm_num))).2⟩,
   (C10_theorem aW dW aW bW eW 2 (by norm_num)).2.2.2 1 (by norm_num) (by norm_num)⟩

/-- C6: for shared inputs (knots `xi`, values `yi`, second derivatives `z`,
interval widths `h` with `h j = xi[j+1] - xi[j]`, query point in interval `j`
of positive width), the point-mode evaluation of `splinterp_pt` and the
bulk-mode cubic of `spline3` produce identical results (in the exact-rational
embedding the two expression trees are equal, including at an exact knot hit,
where `splinterp_pt` short-circuits to `y[j]` and the cubic degenerates to
`yi[j]`). -/
theorem C6_theorem (xi yi z h : ℕ → ℚ) (j : ℕ) (xq : ℚ)
    (hpos : 0 < xi (j+1) - xi j) (hh : h j = xi (j+1) - xi j) :
    splinterpPtFormula z xi yi j xq = splineFormula3 xi yi z h j xq := by
  rw [splinterpPtFormula, splineFormula3, hh]
  by_cases he : xi j = xq
  · rw [if_pos he, ← he]
    ring
  · rw [if_neg he, if_pos hpos]
    have hne : xi (j+1) - xi j ≠ 0 := ne_of_gt hpos
    field_simp
    ring

/-- Concrete knots for the C6 witness. -/
def xiW : ℕ → ℚ := fun i => (i : ℚ)

/-- Concrete tabulated values for the C6 witness. -/
def yiW : ℕ → ℚ := fun i => (i : ℚ) * (i : ℚ)

/-- Concrete second derivatives for the C6 witness. -/
def zW : ℕ → ℚ := fun i => (i : ℚ) + 1

/-- Concrete interval widths for the C6 witness. -/
def hW : ℕ → ℚ := fun _ => 1

theorem C6_witness :
    (0 < xiW 1 - xiW 0 ∧ hW 0 = xiW 1 - xiW 0) ∧
    splinterpPtFormula zW xiW yiW 0 (1/2) = splineFormula3 xiW yiW zW hW 0 (1/2) :=
  ⟨⟨by norm_num [xiW], by norm_num [xiW, hW]⟩,
   C6_theorem xiW yiW zW hW 0 (1/2) (by norm_num [xiW]) (by norm_num [xiW, hW])⟩

lemma simpsonSum_eq_sum (y hs hr hf : ℕ → ℚ) (off m : ℕ) :
    simpsonSum y hs hr hf off m =
      Finset.sum (Finset.range m) (fun i =>
        (y (2*i + off) * (2 - hr i) + y (2*i + off + 1) * hf i
          + y (2*i + off + 2) * (2 - 1 / hr i)) * hs i) := by
  induction m with
  | zero => rfl
  | succ m ih => rw [simpsonSum, ih, Finset.sum_range_succ]

/-- C5: the quadrature wrapper returns 0 for one sample, the trapezoid
`h[0]*(y[0]+y[1])/2` for two samples, and for every even `n >= 4` the
paired-interval Simpson accumulation with offset 1 (skipping the first
interval), summed as `(y[j]*(2-hratio) + y[j+1]*hfactor + y[j+2]*(2-1/hratio))*hsum`
over pairs and divided by 6, plus the trapezoidal contribution of the
skipped first interval. -/
theorem C5_theorem :
    (∀ y h hs hr hf : ℕ → ℚ, simps y h hs hr hf 1 = 0) ∧
    (∀ y h hs hr hf : ℕ → ℚ, simps y h hs hr hf 2 = h 0 * (y 0 + y 1) / 2) ∧
    (∀ (y h hs hr hf : ℕ → ℚ) (n : ℕ), n % 2 = 0 → 4 ≤ n →
      simps y h hs hr hf n =
        Finset.sum (Finset.range ((n-1)/2)) (fun i =>
          (y (2*i + 1) * (2 - hr i) + y (2*i + 2) * hf i
            + y (2*i + 3) * (2 - 1 / hr i)) * hs i) / 6
        + h 0 * (y 0 + y 1) / 2) := by
  refine ⟨fun y h hs hr hf => rfl, fun y h hs hr hf => rfl, ?_⟩
  intro y h hs hr hf n hev hn4
  rw [simps, if_neg (by omega), if_neg (by omega), if_pos hev, simpson,
    simpsonSum_eq_sum]
  have hoff : sOff n = 1 := by rw [sOff, if_pos hev]
  rw [hoff]

/-- Concrete integrand for the quadrature witnesses. -/
def yQ : ℕ → ℚ := fun _ => 2

/-- Concrete intervals for the quadrature witnesses. -/
def hQ : ℕ → ℚ := fun i => (i : ℚ) + 1

theorem C5_witness :
    (simps yQ hQ (gethHsum hQ 4) (gethHratio hQ 4) (gethHfactor hQ 4) 1 = 0) ∧
    (simps yQ hQ (gethHsum hQ 4) (gethHratio hQ 4) (gethHfactor hQ 4) 2 =
      hQ 0 * (yQ 0 + yQ 1) / 2) ∧
    (4 % 2 = 0 ∧ 4 ≤ 4) ∧
    simps yQ hQ (gethHsum hQ 4) (gethHratio hQ 4) (gethHfactor hQ 4) 4 =
      Finset.sum (Finset.range 1) (fun i =>
        (yQ (2*i + 1) * (2 - gethHratio hQ 4 i) + yQ (2*i + 2) * gethHfactor hQ 4 i
          + yQ (2*i + 3) * (2 - 1 / gethHratio hQ 4 i)) * gethHsum hQ 4 i) / 6
      + hQ 0 * (yQ 0 + yQ 1) / 2 :=
  ⟨C5_theorem.1 yQ hQ _ _ _, C5_theorem.2.1 yQ hQ _ _ _, ⟨rfl, by norm_num⟩,
   C5_theorem.2.2 yQ hQ _ _ _ 4 rfl (by norm_num)⟩

lemma pair_sum (h : ℕ → ℚ) (e : ℕ) (m : ℕ) :
    Finset.sum (Finset.range m) (fun i => h (2*i + e) + h (2*i + e + 1)) =
      Finset.sum (Finset.range (2*m)) (fun i => h (i + e)) := by
  induction m with
  | zero => rfl
  | succ m ih =>
    have h2 : 2 * (m + 1) = 2 * m + 1 + 1 := by ring
    rw [Finset.sum_range_succ, ih, h2, Finset.sum_range_succ, Finset.sum_range_succ]
    have e1 : 2 * m + 1 + e = 2 * m + e + 1 := by ring
    rw [e1]
    ring

lemma simpson_term_const (k p q : ℚ) (hp : 0 < p) (hq : 0 < q) :
    (k * (2 - q / p) + k * ((p + q) * (p + q) / (p * q)) + k * (2 - 1 / (q / p))) * (p + q)
      = 6 * (k * (p + q)) := by
  have hp0 : p ≠ 0 := ne_of_gt hp
  have hq0 : q ≠ 0 := ne_of_gt hq
  rw [div_div_eq_mul_div, one_mul]
  field_simp
  ring

/-- C4: the composite-Simpson quadrature `simps`, fed the `geth`-derived
`hsum`/`hratio`/`hfactor` arrays, integrates a constant function `y = k`
over positive interval widths `h` to exactly `k` times the total interval
length (the sum of the `h[i]`), for every `n >= 1`. -/
theorem C4_theorem (n : ℕ) (k : ℚ) (y h : ℕ → ℚ) (hn : 1 ≤ n)
    (hy : ∀ i, i < n → y i = k) (hh : ∀ i, i + 1 < n → 0 < h i) :
    simps y h (gethHsum h n) (gethHratio h n) (gethHfactor h n) n
      = k * Finset.sum (Finset.range (n-1)) h := by
  by_cases h1 : n = 1
  · subst h1
    rw [simps]
    norm_num
  · by_cases h2 : n = 2
    · subst h2
      rw [simps, if_neg (by omega), if_pos rfl, hy 0 (by omega), hy 1 (by omega),
        Finset.sum_range_one]
      ring
    · have h3 : 3 ≤ n := by omega
      have hsoff : (n % 2 = 0 ∧ sOff n = 1) ∨ (n % 2 = 1 ∧ sOff n = 0) := by
        rw [sOff]
        split
        · exact Or.inl ⟨by assumption, rfl⟩
        · exact Or.inr ⟨by omega, rfl⟩
      have hterm : ∀ i ∈ Finset.range ((n-1)/2),
          (y (2*i + sOff n) * (2 - gethHratio h n i)
            + y (2*i + sOff n + 1) * gethHfactor h n i
            + y (2*i + sOff n + 2) * (2 - 1 / gethHratio h n i)) * gethHsum h n i
          = 6 * (k * (h (2*i + sOff n) + h (2*i + sOff n + 1))) := by
        intro i hi
        rw [Finset.mem_range] at hi
        have hin2 : i < n / 2 := by omega
        have hb2 : 2*i + sOff n + 2 < n := by omega
        have hpj : 0 < h (2*i + sOff n) := hh _ (by omega)
        have hpj1 : 0 < h (2*i + sOff n + 1) := hh _ (by omega)
        simp only [gethHsum, gethHratio, gethHfactor]
        rw [if_pos hin2, if_pos hin2, if_pos hin2, hy _ (by omega), hy _ (by omega),
          hy _ (by omega)]
        exact simpson_term_const k _ _ hpj hpj1
      rw [simps, if_neg h1, if_neg h2]
      by_cases hp : n % 2 = 0
      · obtain ⟨t, rfl⟩ : ∃ t, n = 2*t := ⟨n/2, by omega⟩
        have hso : sOff (2*t) = 1 := by rw [sOff, if_pos hp]
        rw [if_pos hp, simpson, simpsonSum_eq_sum, Finset.sum_congr rfl hterm,
          ← Finset.mul_sum, ← Finset.mul_sum, pair_sum, hso]
        have hr1 : 2 * ((2*t - 1)/2) = 2*t - 2 := by omega
        have hr2 : 2*t - 1 = (2*t - 2) + 1 := by omega
        rw [hr1, hr2, Finset.sum_range_succ' h (2*t - 2), hy 0 (by omega), hy 1 (by omega)]
        ring
      · obtain ⟨t, rfl⟩ : ∃ t, n = 2*t + 1 := ⟨n/2, by omega⟩
        have hso : sOff (2*t + 1) = 0 := by rw [sOff, if_neg hp]
        rw [if_neg hp, simpson, simpsonSum_eq_sum, Finset.sum_congr rfl hterm,
          ← Finset.mul_sum, ← Finset.mul_sum, pair_sum, hso]
        have hr1 : 2 * ((2*t + 1 - 1)/2) = 2*t + 1 - 1 := by omega
        rw [hr1]
        have hsummand : ∀ i ∈ Finset.range (2*t + 1 - 1), h (i + 0) = h i := by
          intro i _
          rw [Nat.add_zero]
        rw [Finset.sum_congr rfl hsummand]
        ring

theorem C4_witness :
    ((1 : ℕ) ≤ 3) ∧
    simps yQ hQ (gethHsum hQ 3) (gethHratio hQ 3) (gethHfactor hQ 3) 3 =
      2 * Finset.sum (Finset.range 2) hQ :=
  ⟨by norm_num,
   C4_theorem 3 2 yQ hQ (by norm_num) (fun i _ => rfl)
     (fun i _ => by simp only [hQ]; positivity)⟩

lemma mono_chain (x : ℕ → ℚ) (N : ℕ) (hs : ∀ i, i + 1 < N → x i < x (i+1)) :
    ∀ a b, a < b → b < N → x a < x b := by
  intro a b hab hbN
  induction b with
  | zero => omega
  | succ b ih =>
    rcases Nat.lt_or_ge a b with h | h
    · exact lt_trans (ih h (by omega)) (hs b hbN)
    · have hab' : a = b := by omega
      subst hab'
      exact hs a hbN

lemma scanj_knot (xi : ℕ → ℚ) (N k : ℕ) (hs : ∀ i, i + 1 < N → xi i < xi (i+1))
    (hkN : k < N) :
    ∀ m, 1 ≤ m → m ≤ N - 1 → scanj xi (xi k) m = min k (m - 1) := by
  have hchain := mono_chain xi N hs
  intro m
  induction m with
  | zero => intro h1 _; omega
  | succ m ih =>
    intro _ h2
    rw [scanj]
    by_cases hm : m ≤ k
    · rw [if_pos ?_]
      · omega
      · rcases Nat.lt_or_ge m k with h' | h'
        · exact le_of_lt (hchain m k h' hkN)
        · have : m = k := by omega
          rw [this]
    · rw [if_neg (not_le.mpr (hchain k m (by omega) (by omega)))]
      by_cases hm0 : m = 0
      · omega
      · rw [ih (by omega) (by omega)]
        omega

lemma spline3_knot (xi yi z h : ℕ → ℚ) (N k : ℕ) (hN : 2 ≤ N)
    (hs : ∀ i, i + 1 < N → xi i < xi (i+1))
    (hh : ∀ i, i + 1 < N → h i = xi (i+1) - xi i)
    (hk : k < N) : spline3val xi yi z h N (xi k) = yi k := by
  rw [spline3val, scanj_knot xi N k hs hk (N-1) (by omega) le_rfl]
  by_cases hke : k ≤ N - 2
  · have hmin : min k (N - 1 - 1) = k := by omega
    rw [hmin, splineFormula3]
    ring
  · obtain ⟨M, rfl⟩ : ∃ M, N = M + 2 := ⟨N - 2, by omega⟩
    have hkeq : k = M + 1 := by omega
    subst hkeq
    have hmin : min (M + 1) (M + 2 - 1 - 1) = M := by omega
    rw [hmin, splineFormula3]
    have hhM : h M = xi (M+1) - xi M := hh M (by omega)
    have hpos : xi M < xi (M+1) := hs M (by omega)
    have hne : xi (M+1) - xi M ≠ 0 := ne_of_gt (sub_pos.mpr hpos)
    rw [hhM]
    field_simp
    ring

lemma bs_finds (x : ℕ → ℚ) (N k : ℕ) (hkN : k + 1 ≤ N)
    (hchain : ∀ a b, a < b → b < N → x a < x b) :
    ∀ m : ℕ, ∀ first last : ℤ, (last + 1 - first).toNat ≤ m →
      0 ≤ first → first ≤ (k : ℤ) → (k : ℤ) ≤ last → last ≤ (N : ℤ) →
      bs x (x k) first last = some k := by
  intro m
  induction m with
  | zero =>
    intro first last hm h0 h1 h2 h3
    omega
  | succ m ih =>
    intro first last hm h0 h1 h2 h3
    have hfl : first ≤ last := le_trans h1 h2
    rw [bs, dif_pos hfl]
    have hbd := cdiv2_bounds first last hfl
    have hmid0 : 0 ≤ cdiv2 (first + last) := le_trans h0 hbd.1
    have hmidN : cdiv2 (first + last) ≤ (N : ℤ) - 1 := by
      rw [cdiv2_nonneg _ (by omega)]
      omega
    have hmnmid : ((cdiv2 (first + last)).toNat : ℤ) = cdiv2 (first + last) :=
      Int.toNat_of_nonneg hmid0
    rcases lt_trichotomy (cdiv2 (first + last)).toNat k with hlt | heq | hgt
    · have hx1 : x (cdiv2 (first + last)).toNat < x k := hchain _ k hlt (by omega)
      have hx2 : ¬ x k < x ((cdiv2 (first + last)).toNat + 1) := by
        rcases Nat.lt_or_ge ((cdiv2 (first + last)).toNat + 1) k with h' | h'
        · exact not_lt.mpr (le_of_lt (hchain _ k h' (by omega)))
        · have hknm : (cdiv2 (first + last)).toNat + 1 = k := by omega
          rw [hknm]
          exact lt_irrefl _
      rw [if_neg (fun hc => hx2 hc.2), if_pos hx1]
      exact ih _ _ (by omega) (by omega) (by omega) h2 h3
    · have hxx : ¬ x (cdiv2 (first + last)).toNat < x k := by
        rw [heq]
        exact lt_irrefl _
      rw [if_neg (fun hc => hxx hc.1), if_neg hxx,
        if_neg (by rw [heq]; exact lt_irrefl _)]
      congr 1
      omega
    · have hx1 : x k < x (cdiv2 (first + last)).toNat := hchain k _ hgt (by omega)
      have hnlt : ¬ x (cdiv2 (first + last)).toNat < x k := not_lt.mpr (le_of_lt hx1)
      rw [if_neg (fun hc => hnlt hc.1), if_neg hnlt, if_pos hx1]
      exact ih _ _ (by omega) h0 h1 (by omega) (by omega)

lemma splinterp_pt_knot (z : ℕ → ℚ) (N : ℕ) (x y : ℕ → ℚ) (k : ℕ)
    (hkN : k + 1 ≤ N) (hs : ∀ i, i + 1 < N → x i < x (i+1)) :
    splinterp_pt z N x y (x k) = some (y k) := by
  have hchain := mono_chain x N hs
  have hbs : bs x (x k) 0 (N : ℤ) = some (k : ℤ) :=
    bs_finds x N k hkN hchain ((N : ℤ) + 1).toNat 0 N (by omega) le_rfl
      (by omega) (by omega) le_rfl
  simp only [splinterp_pt, hbs]
  rw [splinterpPtFormula]
  have htn : ((k : ℤ)).toNat = k := Int.toNat_natCast k
  rw [htn, if_pos rfl]

/-- C3: for strictly increasing knots `xi[0..N-1]` (`N >= 2`) with interval
widths `h[i] = xi[i+1] - xi[i]`, evaluating at the knot `xi[k]` returns
`yi[k]` exactly, for every precomputed second-derivative array `z`, both in
the bulk mode (`spline3`, interval located by linear scan) and in the
point mode (`splinterp_pt`, interval located by binary search). -/
theorem C3_theorem (xi yi z h xout : ℕ → ℚ) (N k m : ℕ) (hN : 2 ≤ N) (hk : k < N)
    (hs : ∀ i, i + 1 < N → xi i < xi (i+1))
    (hh : ∀ i, i + 1 < N → h i = xi (i+1) - xi i)
    (hxm : xout m = xi k) :
    spline3arr xi yi xout z h N m = yi k ∧
    splinterp_pt z N xi yi (xi k) = some (yi k) := by
  constructor
  · show spline3val xi yi z h N (xout m) = yi k
    rw [hxm]
    exact spline3_knot xi yi z h N k hN hs hh hk
  · exact splinterp_pt_knot z N xi yi k (by omega) hs

theorem C3_witness :
    ((2 : ℕ) ≤ 2 ∧ 1 < 2 ∧ (fun _ : ℕ => xiW 1) 0 = xiW 1) ∧
    spline3arr xiW yiW (fun _ => xiW 1) zW hW 2 0 = yiW 1 ∧
    splinterp_pt zW 2 xiW yiW (xiW 1) = some (yiW 1) :=
  ⟨⟨le_rfl, by norm_num, rfl⟩,
   (C3_theorem xiW yiW zW hW (fun _ => xiW 1) 2 1 0 le_rfl (by norm_num)
     (fun i hi => by simp only [xiW]; push_cast; linarith)
     (fun i hi => by simp only [xiW, hW]; push_cast; ring) rfl).1,
   (C3_theorem xiW yiW zW hW (fun _ => xiW 1) 2 1 0 le_rfl (by norm_num)
     (fun i hi => by simp only [xiW]; push_cast; linarith)
     (fun i hi => by simp only [xiW, hW]; push_cast; ring) rfl).2⟩
